import Mathlib

/-!
Verification of the bar-extraction and dice-composition core of the Mozart
dice-game repository (src/mozart_dice_game_gui.py and src/spin_game_gui.py).

The two Python files share character-identical helper functions
(`is_channel_msg`, `iter_abs_messages`, `first_meta`, `get_time_signature`,
`get_tempo`, `ticks_per_bar`, `to_delta_track`, `extract_clean_bars`);
those are embedded once below.  Only `build_from_spins` differs between the
two files (the dice-table generation loop), so it is embedded twice, in the
namespaces `Mozart` and `SpinGame`.

Modelling conventions:
* mido `Message` objects are modelled by the structure `ChanMsg`; meta
  messages and sysex by `RawMsg`.  `msg.copy()` is the identity under value
  semantics.
* Python ticks are arbitrary integers, modelled by `Int`.
* The float expressions `tpb * (num * (4.0 / den))` and
  `round(rt * (tpb_out / src_tpb))` are modelled by exact rational
  arithmetic, implemented over `Int` as `roundHalfEvenDiv` (Python `round`
  uses round-half-to-even).  The division `tpb_out / float(src_tpb)`
  raises `ZeroDivisionError` in Python when a selected bar comes from a
  source declaring `ticks_per_beat = 0` (such a source can still yield
  safe bars, because the bar length is clamped to 1); `build_from_spins`
  models that raise as an explicit error branch (`anyZeroSrc`).  The
  `4.0 / float(denominator)` division cannot raise for mido-decoded
  files, whose time-signature denominators are stored as powers of two.
* `random.Random(seed)` is modelled by the stream `perms : Nat -> List Nat`
  of position permutations that its successive `shuffle` calls apply: the
  k-th `shuffle` call rearranges a list `l` into `applyPerm (perms k) l`.
  The permutation a seeded Mersenne-Twister shuffle applies depends only on
  the seed, the call index and the length of the list being shuffled; in
  both programs every shuffle call is applied to a list of the same length
  (the pool size), so a fixed seed determines the same stream `perms` for
  both programs.
* Python `list.sort` / `sorted` (stable by key) is modelled by the stable
  insertion sort `stableSortByKey`.
-/

/-- The mido message type of a channel message (the set CHANNEL_MSGS). -/
inductive MsgType where
  | note_on
  | note_off
  | control_change
  | program_change
  | pitchwheel
  | aftertouch
  | polytouch
deriving DecidableEq

/-- A mido channel `Message`: type, channel, note, velocity and delta time.
For non-note message types the `note`/`velocity` fields model the payload
bytes; the silence bookkeeping never reads them for those types. -/
structure ChanMsg where
  type : MsgType
  channel : Nat
  note : Nat
  velocity : Nat
  time : Int
deriving DecidableEq

/-- A mido meta message (only the kinds the code inspects are distinguished). -/
inductive MetaMsg where
  | timeSignature (numerator denominator : Nat)
  | setTempo (tempo : Nat)
  | otherMeta (payload : Nat)
deriving DecidableEq

/-- A raw track message: meta, channel, or other non-meta (e.g. sysex). -/
inductive RawMsg where
  | meta (time : Int) (m : MetaMsg)
  | chan (m : ChanMsg)
  | sysex (time : Int) (payload : Nat)
deriving DecidableEq

/-- The delta-time field of a raw message. -/
def RawMsg.time : RawMsg → Int
  | .meta t _ => t
  | .chan m => m.time
  | .sysex t _ => t

/-- A mido `MidiFile`: a resolution and a list of tracks. -/
structure MidiFile where
  ticks_per_beat : Nat
  tracks : List (List RawMsg)
deriving DecidableEq

/-- `is_channel_msg`: not meta and type in CHANNEL_MSGS (all `ChanMsg`
constructors are channel types; meta and sysex are not). -/
def is_channel_msg : RawMsg → Bool
  | .chan _ => true
  | _ => false

/-- Round `a / b` (for `b > 0`) to the nearest integer, ties to even:
the behaviour of Python `round` on the exact rational `a / b`. -/
def roundHalfEvenDiv (a b : Int) : Int :=
  let q := Int.fdiv a b
  let r := a - b * q
  if 2 * r < b then q
  else if b < 2 * r then q + 1
  else if q % 2 = 0 then q else q + 1

/-- mido `bpm2tempo`: microseconds per beat, `int(round(60 * 1e6 / bpm))`. -/
def bpm2tempo (bpm : Nat) : Nat := (roundHalfEvenDiv 60000000 bpm).toNat

/-- `ticks_per_bar(tpb, numerator, denominator)`:
`max(1, int(round(tpb * (numerator * (4.0 / denominator)))))`, the float
product modelled as the exact rational `tpb * numerator * 4 / denominator`.
A zero denominator would raise in Python, but is unreachable: sources are
mido-decoded files, whose time-signature denominators are powers of two. -/
def ticks_per_bar (tpb numerator denominator : Nat) : Int :=
  max 1 (roundHalfEvenDiv ((tpb : Int) * numerator * 4) denominator)

/-- Stable insertion by key: place `e` after every element whose tick key is
`≤ e`'s, before the first strictly greater one. -/
def insertByKey (e : Int × ChanMsg) : List (Int × ChanMsg) → List (Int × ChanMsg)
  | [] => [e]
  | x :: xs => if x.1 ≤ e.1 then x :: insertByKey e xs else e :: x :: xs

/-- Python's stable sort by the tick key (`events.sort(key=lambda x: x[0])`):
any stable sort computes the same function; we use insertion sort. -/
def stableSortByKey (l : List (Int × ChanMsg)) : List (Int × ChanMsg) :=
  l.foldl (fun acc e => insertByKey e acc) []

/-- Per-track pass of `iter_abs_messages`: accumulate absolute times
(`t += msg.time`) and keep channel messages paired with their absolute time. -/
def trackAbsEvents_go (t : Int) : List RawMsg → List (Int × ChanMsg)
  | [] => []
  | .chan m :: rest => (t + m.time, m) :: trackAbsEvents_go (t + m.time) rest
  | msg :: rest => trackAbsEvents_go (t + msg.time) rest

/-- Absolute channel events of one track. -/
def trackAbsEvents (tr : List RawMsg) : List (Int × ChanMsg) :=
  trackAbsEvents_go 0 tr

/-- `iter_abs_messages`: all tracks' absolute channel events, concatenated in
track order and stable-sorted by absolute time. -/
def iter_abs_messages (mid : MidiFile) : List (Int × ChanMsg) :=
  stableSortByKey (mid.tracks.map trackAbsEvents).flatten

/-- `first_meta(mid, "time_signature")`: first time-signature meta record in
track order. -/
def first_meta_time_signature (mid : MidiFile) : Option (Nat × Nat) :=
  mid.tracks.flatten.findSome? fun msg =>
    match msg with
    | .meta _ (.timeSignature n d) => some (n, d)
    | _ => none

/-- `first_meta(mid, "set_tempo")`: first tempo meta record in track order. -/
def first_meta_set_tempo (mid : MidiFile) : Option Nat :=
  mid.tracks.flatten.findSome? fun msg =>
    match msg with
    | .meta _ (.setTempo t) => some t
    | _ => none

/-- `get_time_signature`: first time-signature record, defaulting to 4/4. -/
def get_time_signature (mid : MidiFile) : Nat × Nat :=
  (first_meta_time_signature mid).getD (4, 4)

/-- `get_tempo`: first tempo record, defaulting to `bpm2tempo(120)`. -/
def get_tempo (mid : MidiFile) : Nat :=
  (first_meta_set_tempo mid).getD (bpm2tempo 120)

/-- `to_delta_track` loop: `dt = int(max(0, t - last)); msg.time = dt`. -/
def to_delta_track_go (last : Int) : List (Int × ChanMsg) → List ChanMsg
  | [] => []
  | (t, m) :: rest => { m with time := max 0 (t - last) } :: to_delta_track_go t rest

/-- `to_delta_track`: absolute events to a delta-encoded track. -/
def to_delta_track (absEvents : List (Int × ChanMsg)) : List ChanMsg :=
  to_delta_track_go 0 absEvents

/-- The `active` dict of `extract_clean_bars`: (channel, note) → velocity. -/
abbrev VMap := List ((Nat × Nat) × Nat)

/-- Python `dict.__setitem__`: update in place if the key exists, else append. -/
def dictSet (d : VMap) (k : Nat × Nat) (v : Nat) : VMap :=
  if d.any (fun p => p.1 = k) then
    d.map (fun p => if p.1 = k then (k, v) else p)
  else d ++ [(k, v)]

/-- Python `dict.pop(k, None)`: remove the key if present. -/
def dictPop (d : VMap) (k : Nat × Nat) : VMap :=
  d.filter (fun p => ¬ p.1 = k)

/-- One step of the silence bookkeeping, as duplicated in both scanning
loops of `extract_clean_bars`: a note_on with positive velocity opens the
(channel, note) voice; a note_off, or a note_on with zero velocity, closes
it; other messages leave the map unchanged. -/
def voiceStep (active : VMap) (m : ChanMsg) : VMap :=
  if m.type = .note_on ∧ m.velocity > 0 then
    dictSet active (m.channel, m.note) m.velocity
  else if m.type = .note_off ∨ (m.type = .note_on ∧ m.velocity = 0) then
    dictPop active (m.channel, m.note)
  else active

/-- Replay a run of timed events through the voice map. -/
def replayVoices (active : VMap) (evs : List (Int × ChanMsg)) : VMap :=
  evs.foldl (fun a e => voiceStep a e.2) active

/-- A safe bar: events as (bar-relative tick, message with delta time). -/
abbrev Bar := List (Int × ChanMsg)

/-- The delta-assignment loop at the end of a qualifying bar:
`dt = int(max(0, rt - last)); m.time = dt; last = rt`. -/
def assignDeltas (last : Int) : List (Int × ChanMsg) → List (Int × ChanMsg)
  | [] => []
  | (rt, m) :: rest =>
      (rt, { m with time := max 0 (rt - last) }) :: assignDeltas rt rest

/-- The body of `for b in range(n_bars)` in `extract_clean_bars`: consume
events before the bar start (first while loop), test start silence, consume
the bar's events (second while loop), test end silence, and retain the bar
if it qualifies.  State is (remaining events, active voices, bars so far). -/
def tickLT (s : Int) : Int × ChanMsg → Bool := fun e => decide (e.1 < s)

def barStep (barLen : Int) (st : List (Int × ChanMsg) × VMap × List Bar) (b : Nat) :
    List (Int × ChanMsg) × VMap × List Bar :=
  let remaining := st.1
  let active := st.2.1
  let bars := st.2.2
  let start : Int := (b : Int) * barLen
  let fin : Int := ((b : Int) + 1) * barLen
  let pre := remaining.takeWhile (tickLT start)
  let rem1 := remaining.dropWhile (tickLT start)
  let active1 := replayVoices active pre
  let inBar := rem1.takeWhile (tickLT fin)
  let rem2 := rem1.dropWhile (tickLT fin)
  let active2 := replayVoices active1 inBar
  let barEventsAbs := inBar.map (fun e => (e.1 - start, { e.2 with time := 0 }))
  if active1 = [] ∧ active2 = [] ∧ barEventsAbs ≠ [] then
    (rem2, active2, bars ++ [assignDeltas 0 (stableSortByKey barEventsAbs)])
  else
    (rem2, active2, bars)

/-- `extract_clean_bars`: bars that start and end in silence.  The final
per-bar deep copy of the source is the identity under value semantics. -/
def extract_clean_bars (mid : MidiFile) : List Bar :=
  let tpb := mid.ticks_per_beat
  let num := (get_time_signature mid).1
  let den := (get_time_signature mid).2
  let barLen := ticks_per_bar tpb num den
  let events := iter_abs_messages mid
  if events = [] then []
  else
    let endTime := (events.getLastD (0, ⟨.note_on, 0, 0, 0, 0⟩)).1
    let nBars : Int := max 1 (Int.fdiv endTime barLen + 1)
    (((List.range nBars.toNat).foldl (barStep barLen) (events, [], [])).2).2

/-- A pool entry `(src_tpb, source_name, bar_index, bar_events)`. -/
abbrev PoolEntry := Nat × String × Nat × Bar

/-- `rng.shuffle`: the Fisher-Yates pass of a seeded Mersenne Twister
applies a position permutation `σ` that depends only on the generator state
and the length of the list (see the module docstring); the shuffled list has
`σ i`-th old element at position `i`. -/
def applyPerm (σ : List Nat) (l : List PoolEntry) : List PoolEntry :=
  σ.filterMap (fun i => l[i]?)

/-- Default entry used to express Python indexing `shuffled[j]` totally;
all uses are proved in bounds. -/
def dfltEntry : PoolEntry := (0, "", 0, [])

/-- The `for _ in range(11)` loop building one turn's choices: each choice is
`[shuffled[(pos + k) % len(shuffled)] for k in range(4)]` (phrase_len_bars
is the constant 4), then `pos = (pos + 4) % len(shuffled)`. -/
def mkChoices_go (shuffled : List PoolEntry) (pos : Nat) : Nat → List (List PoolEntry)
  | 0 => []
  | n + 1 =>
      ((List.range 4).map fun k => shuffled.getD ((pos + k) % shuffled.length) dfltEntry)
        :: mkChoices_go shuffled ((pos + 4) % shuffled.length) n

/-- The 11 choices (for dice sums 2..12) built from one shuffled pool. -/
def mkChoices (shuffled : List PoolEntry) : List (List PoolEntry) :=
  mkChoices_go shuffled 0 11

/-- Pool construction shared verbatim by both files: concatenate the clean
bars of every source (skipping sources with none), and record the first
non-empty source's tempo and time signature. -/
def buildPool : List (String × MidiFile) → List PoolEntry × Option Nat × Option (Nat × Nat)
  | [] => ([], none, none)
  | (name, mid) :: rest =>
      let bars := extract_clean_bars mid
      let r := buildPool rest
      if bars = [] then r
      else
        (bars.enum.map (fun ib => (mid.ticks_per_beat, name, ib.1, ib.2)) ++ r.1,
         some (get_tempo mid), some (get_time_signature mid))

/-- `total = max(2, min(12, int(total)))`: defensive clamp into [2, 12]. -/
def clampTotal (total : Int) : Int := max 2 (min 12 total)

/-- One trace line `f"Spin {spin_idx+1}: total={total} → phrase from {names}"`,
modelled structurally by its three interpolated values (both files use the
identical format string, so structural equality coincides with text
equality). -/
structure LogLine where
  spin : Nat
  total : Int
  names : List String
deriving DecidableEq

/-- Rescale one bar to the output resolution and rebase it:
`rel_abs = [(int(round(rt * scale)), m.copy()) ...]` with
`scale = tpb_out / float(src_tpb)` (modelled exactly as the rational
`rt * tpb_out / src_tpb`), then `rebased = [(abs_out_time + t, m) ...]`.
At `src_tpb = 0` Python raises `ZeroDivisionError` instead of producing a
value; `build_from_spins` intercepts that case with the `anyZeroSrc` guard
before any bar is rebased, so in the build pipeline this function is only
evaluated with `src_tpb ≠ 0`. -/
def rebaseBar (tpbOut : Nat) (base : Int) (entry : PoolEntry) : List (Int × ChanMsg) :=
  (entry.2.2.2.map (fun e => (roundHalfEvenDiv (e.1 * tpbOut) entry.1, e.2))).map
    (fun e => (base + e.1, e.2))

/-- The inner `for src_tpb, name, bar_idx, bar in phrase` loop: emit each
bar's rebased events and advance `abs_out_time += bar_len_out` per bar.
Returns the emitted events and the final `abs_out_time`. -/
def phraseChunk (tpbOut : Nat) (barLenOut : Int) (base : Int) :
    List PoolEntry → List (Int × ChanMsg) × Int
  | [] => ([], base)
  | entry :: rest =>
      let r := phraseChunk tpbOut barLenOut (base + barLenOut) rest
      (rebaseBar tpbOut base entry ++ r.1, r.2)

/-- The `for spin_idx, total in enumerate(spins)` assembly loop: clamp the
total, select `dice_table[spin_idx][total - 2]`, log the provenance line,
and emit the phrase's rebased events. -/
def assembleGo (diceTable : List (List (List PoolEntry))) (tpbOut : Nat)
    (barLenOut : Int) (base : Int) (spinIdx : Nat) :
    List Int → List (Int × ChanMsg) × List LogLine
  | [] => ([], [])
  | total :: rest =>
      let t := clampTotal total
      let phrase := (diceTable.getD spinIdx []).getD (t - 2).toNat []
      let pc := phraseChunk tpbOut barLenOut base phrase
      let r := assembleGo diceTable tpbOut barLenOut pc.2 (spinIdx + 1) rest
      (pc.1 ++ r.1,
       ⟨spinIdx + 1, t, phrase.map (fun e => e.2.1)⟩ :: r.2)

/-- Whether the assembly loop reaches a selected bar whose source resolution
is zero.  At such a bar Python raises `ZeroDivisionError` when it computes
`scale = tpb_out / float(src_tpb)`, aborting the whole composition, so
`build_from_spins` surfaces this as an explicit error branch.  The scan
walks the same phrases, selected by the same clamped indices, as
`assembleGo`; a raise at the first zero-resolution bar and a pre-scan
produce the same `Except`-level result because the raise discards all
partial output. -/
def anyZeroSrc (diceTable : List (List (List PoolEntry))) (spinIdx : Nat) :
    List Int → Bool
  | [] => false
  | total :: rest =>
      ((diceTable.getD spinIdx []).getD (clampTotal total - 2).toNat []).any
          (fun e => decide (e.1 = 0)) ||
        anyZeroSrc diceTable (spinIdx + 1) rest

/-- The produced output `MidiFile`: target resolution, one track. -/
structure OutMidi where
  ticks_per_beat : Nat
  track : List RawMsg
deriving DecidableEq

/-- The tail of `build_from_spins`, line-identical in both files: assemble
the events, stable-sort them by absolute tick, and build the output file
with the time-signature and tempo meta records followed by the
delta-encoded events. -/
def assembleOutput (diceTable : List (List (List PoolEntry))) (spins : List Int)
    (tpbOut : Nat) (tempo : Nat) (num den : Nat) : OutMidi × List LogLine :=
  let barLenOut := ticks_per_bar tpbOut num den
  let r := assembleGo diceTable tpbOut barLenOut 0 0 spins
  let sortedEvents := stableSortByKey r.1
  (⟨tpbOut,
    RawMsg.meta 0 (.timeSignature num den) :: RawMsg.meta 0 (.setTempo tempo)
      :: (to_delta_track sortedEvents).map RawMsg.chan⟩,
   r.2)

namespace Mozart

/-- Dice-table loop of src/mozart_dice_game_gui.py: each turn shuffles a
fresh copy of the pool (`shuffled = pool[:]; rng.shuffle(shuffled)`); the
pool itself is never modified. -/
def genTables (pool : List PoolEntry) (perms : Nat → List Nat) (n : Nat) :
    List (List (List PoolEntry)) :=
  (List.range n).map fun spinIdx => mkChoices (applyPerm (perms spinIdx) pool)

/-- `build_from_spins` of src/mozart_dice_game_gui.py. -/
def build_from_spins (midis : List (String × MidiFile)) (spins : List Int)
    (tpbOut : Nat) (perms : Nat → List Nat) : Except String (OutMidi × List LogLine) :=
  let pool := (buildPool midis).1
  if pool = [] then .error "No clean bars found in the provided MIDIs."
  else
    let tempo := ((buildPool midis).2.1).getD (bpm2tempo 120)
    let num := (((buildPool midis).2.2).getD (4, 4)).1
    let den := (((buildPool midis).2.2).getD (4, 4)).2
    let diceTable := genTables pool perms spins.length
    if anyZeroSrc diceTable 0 spins then
      .error "ZeroDivisionError: float division by zero"
    else
      .ok (assembleOutput diceTable spins tpbOut tempo num den)

end Mozart

namespace SpinGame

/-- Dice-table loop of src/spin_game_gui.py: each turn shuffles the pool
itself in place (`rng.shuffle(pool)`).  Returns the final state of the pool
together with the tables. -/
def genTables_go (perms : Nat → List Nat) (pool : List PoolEntry) (spinIdx : Nat) :
    Nat → List PoolEntry × List (List (List PoolEntry))
  | 0 => (pool, [])
  | n + 1 =>
      let shuffled := applyPerm (perms spinIdx) pool
      let r := genTables_go perms shuffled (spinIdx + 1) n
      (r.1, mkChoices shuffled :: r.2)

/-- Dice-table generation of src/spin_game_gui.py. -/
def genTables (pool : List PoolEntry) (perms : Nat → List Nat) (n : Nat) :
    List PoolEntry × List (List (List PoolEntry)) :=
  genTables_go perms pool 0 n

/-- `build_from_spins` of src/spin_game_gui.py. -/
def build_from_spins (midis : List (String × MidiFile)) (spins : List Int)
    (tpbOut : Nat) (perms : Nat → List Nat) : Except String (OutMidi × List LogLine) :=
  let pool := (buildPool midis).1
  if pool = [] then .error "No clean bars found in the provided MIDIs."
  else
    let tempo := ((buildPool midis).2.1).getD (bpm2tempo 120)
    let num := (((buildPool midis).2.2).getD (4, 4)).1
    let den := (((buildPool midis).2.2).getD (4, 4)).2
    let diceTable := (genTables pool perms spins.length).2
    if anyZeroSrc diceTable 0 spins then
      .error "ZeroDivisionError: float division by zero"
    else
      .ok (assembleOutput diceTable spins tpbOut tempo num den)

end SpinGame

/-! ### Lemmas about the stable sort -/

/-- Sortedness by the tick key. -/
abbrev KeySorted (l : List (Int × ChanMsg)) : Prop :=
  List.Pairwise (fun a b => a.1 ≤ b.1) l

theorem mem_insertByKey {a e : Int × ChanMsg} {l : List (Int × ChanMsg)} :
    a ∈ insertByKey e l ↔ a = e ∨ a ∈ l := by
  induction l with
  | nil => simp [insertByKey]
  | cons x xs ih =>
    simp only [insertByKey]
    split
    · simp only [List.mem_cons, ih]
      tauto
    · simp only [List.mem_cons]

theorem insertByKey_sorted {e : Int × ChanMsg} {l : List (Int × ChanMsg)}
    (h : KeySorted l) : KeySorted (insertByKey e l) := by
  induction l with
  | nil => simp [insertByKey]
  | cons x xs ih =>
    obtain ⟨hx, hxs⟩ := List.pairwise_cons.mp h
    simp only [insertByKey]
    split
    · rename_i hle
      refine List.pairwise_cons.mpr ⟨?_, ih hxs⟩
      intro b hb
      rcases mem_insertByKey.mp hb with rfl | hb
      · exact hle
      · exact hx b hb
    · rename_i hgt
      push_neg at hgt
      refine List.pairwise_cons.mpr ⟨?_, h⟩
      intro b hb
      rcases List.mem_cons.mp hb with rfl | hb
      · exact le_of_lt hgt
      · exact le_trans (le_of_lt hgt) (hx b hb)

theorem foldl_insertByKey_sorted (l : List (Int × ChanMsg)) (acc : List (Int × ChanMsg))
    (h : KeySorted acc) : KeySorted (l.foldl (fun acc e => insertByKey e acc) acc) := by
  induction l generalizing acc with
  | nil => simpa
  | cons e rest ih => exact ih _ (insertByKey_sorted h)

theorem stableSortByKey_sorted (l : List (Int × ChanMsg)) : KeySorted (stableSortByKey l) :=
  foldl_insertByKey_sorted l [] (by simp)

theorem insertByKey_of_le {e : Int × ChanMsg} {l : List (Int × ChanMsg)}
    (h : ∀ x ∈ l, x.1 ≤ e.1) : insertByKey e l = l ++ [e] := by
  induction l with
  | nil => rfl
  | cons x xs ih =>
    simp only [insertByKey]
    rw [if_pos (h x (by simp))]
    rw [ih (fun y hy => h y (by simp [hy]))]
    simp

theorem foldl_insertByKey_of_sorted (l acc : List (Int × ChanMsg))
    (h : KeySorted (acc ++ l)) :
    l.foldl (fun acc e => insertByKey e acc) acc = acc ++ l := by
  induction l generalizing acc with
  | nil => simp
  | cons e rest ih =>
    have hle : ∀ x ∈ acc, x.1 ≤ e.1 := fun x hx =>
      (List.pairwise_append.mp h).2.2 x hx e (by simp)
    simp only [List.foldl_cons]
    rw [insertByKey_of_le hle]
    rw [ih (acc ++ [e]) (by simpa using h)]
    simp

theorem stableSortByKey_of_sorted {l : List (Int × ChanMsg)} (h : KeySorted l) :
    stableSortByKey l = l := by
  simpa [stableSortByKey] using foldl_insertByKey_of_sorted l [] (by simpa)

theorem insertByKey_length (e : Int × ChanMsg) (l : List (Int × ChanMsg)) :
    (insertByKey e l).length = l.length + 1 := by
  induction l with
  | nil => rfl
  | cons x xs ih =>
    simp only [insertByKey]
    split <;> simp [ih]

theorem foldl_insertByKey_length (l acc : List (Int × ChanMsg)) :
    (l.foldl (fun acc e => insertByKey e acc) acc).length = acc.length + l.length := by
  induction l generalizing acc with
  | nil => simp
  | cons e rest ih =>
    simp only [List.foldl_cons]
    rw [ih]
    simp [insertByKey_length]
    omega

theorem stableSortByKey_length (l : List (Int × ChanMsg)) :
    (stableSortByKey l).length = l.length := by
  simpa [stableSortByKey] using foldl_insertByKey_length l []

/-! ### Lemmas about takeWhile / dropWhile and voice replay -/

theorem takeWhile_dropWhile_nil {α : Type} (p : α → Bool) (l : List α) :
    (l.dropWhile p).takeWhile p = [] := by
  induction l with
  | nil => rfl
  | cons x xs ih =>
    by_cases h : p x
    · simpa [List.dropWhile_cons, h] using ih
    · simp [List.dropWhile_cons, h, List.takeWhile_cons]

theorem dropWhile_eq_self_of_take_nil {α : Type} {p : α → Bool} {l : List α}
    (h : l.takeWhile p = []) : l.dropWhile p = l := by
  cases l with
  | nil => rfl
  | cons x xs =>
    by_cases hx : p x
    · simp [List.takeWhile_cons, hx] at h
    · simp [List.dropWhile_cons, hx]

theorem takeWhile_append_all {α : Type} {p : α → Bool} {l₁ l₂ : List α}
    (h : ∀ x ∈ l₁, p x = true) :
    (l₁ ++ l₂).takeWhile p = l₁ ++ l₂.takeWhile p := by
  induction l₁ with
  | nil => simp
  | cons x xs ih =>
    simp only [List.cons_append, List.takeWhile_cons, h x (by simp)]
    rw [ih (fun y hy => h y (by simp [hy]))]
    simp

theorem dropWhile_append_all {α : Type} {p : α → Bool} {l₁ l₂ : List α}
    (h : ∀ x ∈ l₁, p x = true) :
    (l₁ ++ l₂).dropWhile p = l₂.dropWhile p := by
  induction l₁ with
  | nil => simp
  | cons x xs ih =>
    simp only [List.cons_append, List.dropWhile_cons, h x (by simp), if_pos]
    exact ih (fun y hy => h y (by simp [hy]))

theorem mem_dropWhile_key_ge {s : Int} {l : List (Int × ChanMsg)} (hs : KeySorted l) :
    ∀ e ∈ l.dropWhile (tickLT s), s ≤ e.1 := by
  induction l with
  | nil => simp
  | cons x xs ih =>
    obtain ⟨hx, hxs⟩ := List.pairwise_cons.mp hs
    by_cases h : x.1 < s
    · simpa [List.dropWhile_cons, tickLT, h] using ih hxs
    · push_neg at h
      intro e he
      simp only [List.dropWhile_cons, tickLT, decide_eq_true_eq] at he
      rw [if_neg (by omega)] at he
      rcases List.mem_cons.mp he with rfl | he
      · exact h
      · exact le_trans h (hx e he)

theorem mem_takeWhile_key_lt {s : Int} {l : List (Int × ChanMsg)} :
    ∀ e ∈ l.takeWhile (tickLT s), e.1 < s := by
  intro e he
  have := List.mem_takeWhile_imp he
  simpa [tickLT] using this

theorem takeWhile_eq_filter_of_sorted {s : Int} {l : List (Int × ChanMsg)}
    (hs : KeySorted l) : l.takeWhile (tickLT s) = l.filter (tickLT s) := by
  induction l with
  | nil => rfl
  | cons x xs ih =>
    obtain ⟨hx, hxs⟩ := List.pairwise_cons.mp hs
    by_cases h : x.1 < s
    · simp only [List.takeWhile_cons, List.filter_cons, tickLT, decide_eq_true_eq]
      rw [if_pos (by simpa using h), if_pos (by simpa using h)]
      rw [ih hxs]
    · push_neg at h
      simp only [List.takeWhile_cons, List.filter_cons, tickLT, decide_eq_true_eq]
      rw [if_neg (by omega), if_neg (by omega)]
      symm
      rw [List.filter_eq_nil_iff]
      intro e he
      have : s ≤ e.1 := le_trans h (hx e he)
      simp [tickLT]
      omega

theorem replayVoices_cons (a : VMap) (e : Int × ChanMsg) (l : List (Int × ChanMsg)) :
    replayVoices a (e :: l) = replayVoices (voiceStep a e.2) l := rfl

theorem replayVoices_append (a : VMap) (l₁ l₂ : List (Int × ChanMsg)) :
    replayVoices a (l₁ ++ l₂) = replayVoices (replayVoices a l₁) l₂ := by
  unfold replayVoices
  exact List.foldl_append _ _ _ _

theorem voiceStep_time (a : VMap) (m : ChanMsg) (t : Int) :
    voiceStep a { m with time := t } = voiceStep a m := rfl

theorem replayVoices_map_rel (a : VMap) (start : Int) (l : List (Int × ChanMsg)) :
    replayVoices a (l.map (fun e => (e.1 - start, { e.2 with time := 0 }))) =
      replayVoices a l := by
  induction l generalizing a with
  | nil => rfl
  | cons e rest ih =>
    simp only [List.map_cons, replayVoices_cons]
    rw [voiceStep_time]
    exact ih _

theorem replayVoices_assignDeltas (a : VMap) (last : Int) (l : List (Int × ChanMsg)) :
    replayVoices a (assignDeltas last l) = replayVoices a l := by
  induction l generalizing a last with
  | nil => rfl
  | cons e rest ih =>
    cases e with
    | mk rt m =>
      simp only [assignDeltas, replayVoices_cons]
      rw [voiceStep_time]
      exact ih _ _

theorem assignDeltas_map_fst (last : Int) (l : List (Int × ChanMsg)) :
    (assignDeltas last l).map Prod.fst = l.map Prod.fst := by
  induction l generalizing last with
  | nil => rfl
  | cons e rest ih =>
    cases e with
    | mk rt m =>
      simp only [assignDeltas, List.map_cons]
      rw [ih]

/-! ### The bar-scan invariant of extract_clean_bars -/

theorem replayVoices_nil (a : VMap) : replayVoices a [] = a := rfl

/-- The source events falling in bar `b`'s window `[b*barLen, (b+1)*barLen)`,
as scanned by `extract_clean_bars` (in sorted stream order). -/
def barWindow (events : List (Int × ChanMsg)) (barLen : Int) (b : Nat) :
    List (Int × ChanMsg) :=
  (events.dropWhile (tickLT ((b : Int) * barLen))).takeWhile
    (tickLT (((b : Int) + 1) * barLen))

/-- The window events converted to bar-relative ticks with zeroed time. -/
def barRel (events : List (Int × ChanMsg)) (barLen : Int) (b : Nat) :
    List (Int × ChanMsg) :=
  (barWindow events barLen b).map
    (fun e => (e.1 - (b : Int) * barLen, { e.2 with time := 0 }))

/-- The (zero- or one-element) list of bars retained while scanning bar `b`. -/
def newBars (events : List (Int × ChanMsg)) (barLen : Int) (b : Nat) : List Bar :=
  if replayVoices [] (events.takeWhile (tickLT ((b : Int) * barLen))) = [] ∧
      replayVoices [] (events.takeWhile (tickLT (((b : Int) + 1) * barLen))) = [] ∧
      barRel events barLen b ≠ [] then
    [assignDeltas 0 (stableSortByKey (barRel events barLen b))]
  else []

/-- A bar retained by the scan: for some bar index `b`, the voice map is
empty after replaying everything before the window, empty again after the
window, the window is non-empty, and the bar is the sorted delta-encoded
window. -/
def GoodBar (events : List (Int × ChanMsg)) (barLen : Int) (bar : Bar) : Prop :=
  ∃ b : Nat,
    replayVoices [] (events.takeWhile (tickLT ((b : Int) * barLen))) = [] ∧
    replayVoices [] (events.takeWhile (tickLT (((b : Int) + 1) * barLen))) = [] ∧
    barRel events barLen b ≠ [] ∧
    bar = assignDeltas 0 (stableSortByKey (barRel events barLen b))

theorem mem_newBars_good {events : List (Int × ChanMsg)} {barLen : Int} {b : Nat}
    {bar : Bar} (h : bar ∈ newBars events barLen b) : GoodBar events barLen bar := by
  unfold newBars at h
  split at h
  · rename_i hc
    rcases List.mem_singleton.mp h with rfl
    exact ⟨b, hc.1, hc.2.1, hc.2.2, rfl⟩
  · exact absurd h (List.not_mem_nil bar)

theorem barStep_canonical (events : List (Int × ChanMsg)) (barLen : Int)
    (hB : 0 ≤ barLen) (bars : List Bar) (b : Nat) :
    barStep barLen
      (events.dropWhile (tickLT ((b : Int) * barLen)),
       replayVoices [] (events.takeWhile (tickLT ((b : Int) * barLen))), bars) b =
    (events.dropWhile (tickLT (((b : Int) + 1) * barLen)),
     replayVoices [] (events.takeWhile (tickLT (((b : Int) + 1) * barLen))),
     bars ++ newBars events barLen b) := by
  have hpre := takeWhile_dropWhile_nil (tickLT ((b : Int) * barLen)) events
  have hrem1 := dropWhile_eq_self_of_take_nil hpre
  have hall : ∀ x ∈ events.takeWhile (tickLT ((b : Int) * barLen)),
      tickLT (((b : Int) + 1) * barLen) x = true := by
    intro x hx
    have h1 : x.1 < (b : Int) * barLen := mem_takeWhile_key_lt x hx
    have h2 : (b : Int) * barLen ≤ ((b : Int) + 1) * barLen := by nlinarith
    simp only [tickLT, decide_eq_true_eq]
    linarith
  have htake : events.takeWhile (tickLT (((b : Int) + 1) * barLen)) =
      events.takeWhile (tickLT ((b : Int) * barLen)) ++
        (events.dropWhile (tickLT ((b : Int) * barLen))).takeWhile
          (tickLT (((b : Int) + 1) * barLen)) := by
    conv_lhs => rw [← List.takeWhile_append_dropWhile (tickLT ((b : Int) * barLen)) events]
    rw [takeWhile_append_all hall]
  have hdrop : events.dropWhile (tickLT (((b : Int) + 1) * barLen)) =
      (events.dropWhile (tickLT ((b : Int) * barLen))).dropWhile
        (tickLT (((b : Int) + 1) * barLen)) := by
    conv_lhs => rw [← List.takeWhile_append_dropWhile (tickLT ((b : Int) * barLen)) events]
    rw [dropWhile_append_all hall]
  simp only [barStep, newBars, barRel, barWindow, hpre, hrem1, replayVoices_nil]
  rw [hdrop, htake, replayVoices_append]
  split_ifs with hc
  · rfl
  · simp

theorem barStep_zero (events : List (Int × ChanMsg)) (barLen : Int) :
    barStep barLen (events, ([] : VMap), ([] : List Bar)) 0 =
      barStep barLen
        (events.dropWhile (tickLT (((0 : Nat) : Int) * barLen)),
         replayVoices [] (events.takeWhile (tickLT (((0 : Nat) : Int) * barLen))),
         ([] : List Bar)) 0 := by
  have hpre := takeWhile_dropWhile_nil (tickLT (((0 : Nat) : Int) * barLen)) events
  have hrem1 := dropWhile_eq_self_of_take_nil hpre
  simp only [barStep, hpre, hrem1, replayVoices_nil]

theorem barFold_invariant (events : List (Int × ChanMsg)) (barLen : Int)
    (hB : 0 ≤ barLen) (m : Nat) :
    ∃ bars : List Bar,
      (List.range (m + 1)).foldl (barStep barLen) (events, ([] : VMap), ([] : List Bar)) =
        (events.dropWhile (tickLT (((m : Int) + 1) * barLen)),
         replayVoices [] (events.takeWhile (tickLT (((m : Int) + 1) * barLen))), bars) ∧
      ∀ bar ∈ bars, GoodBar events barLen bar := by
  induction m with
  | zero =>
    refine ⟨newBars events barLen 0, ?_, ?_⟩
    · rw [show List.range 1 = [0] from rfl]
      simp only [List.foldl_cons, List.foldl_nil]
      rw [barStep_zero, barStep_canonical events barLen hB [] 0]
      simp
    · intro bar hbar
      exact mem_newBars_good hbar
  | succ n ih =>
    obtain ⟨bars, heq, hgood⟩ := ih
    refine ⟨bars ++ newBars events barLen (n + 1), ?_, ?_⟩
    · rw [List.range_succ, List.foldl_append, heq]
      simp only [List.foldl_cons, List.foldl_nil]
      have hstep := barStep_canonical events barLen hB bars (n + 1)
      push_cast at hstep ⊢
      exact hstep
    · intro bar hbar
      rcases List.mem_append.mp hbar with h | h
      · exact hgood bar h
      · exact mem_newBars_good h

theorem ticks_per_bar_pos (a b c : Nat) : 1 ≤ ticks_per_bar a b c := by
  unfold ticks_per_bar
  exact le_max_left _ _

theorem extract_clean_bars_good {mid : MidiFile} {bar : Bar}
    (h : bar ∈ extract_clean_bars mid) :
    GoodBar (iter_abs_messages mid)
      (ticks_per_bar mid.ticks_per_beat (get_time_signature mid).1
        (get_time_signature mid).2) bar := by
  simp only [extract_clean_bars] at h
  by_cases hev : iter_abs_messages mid = []
  · rw [if_pos hev] at h
    exact absurd h (List.not_mem_nil bar)
  · rw [if_neg hev] at h
    have hB : (0 : Int) ≤ ticks_per_bar mid.ticks_per_beat (get_time_signature mid).1
        (get_time_signature mid).2 := le_trans (by norm_num) (ticks_per_bar_pos _ _ _)
    obtain ⟨m, hm⟩ : ∃ m,
        (max 1 (Int.fdiv ((iter_abs_messages mid).getLastD (0, ⟨.note_on, 0, 0, 0, 0⟩)).1
          (ticks_per_bar mid.ticks_per_beat (get_time_signature mid).1
            (get_time_signature mid).2) + 1)).toNat = m + 1 := by
      refine ⟨(max 1 (Int.fdiv ((iter_abs_messages mid).getLastD
        (0, ⟨.note_on, 0, 0, 0, 0⟩)).1
          (ticks_per_bar mid.ticks_per_beat (get_time_signature mid).1
            (get_time_signature mid).2) + 1)).toNat - 1, ?_⟩
      omega
    rw [hm] at h
    obtain ⟨bars, heq, hgood⟩ := barFold_invariant (iter_abs_messages mid)
      (ticks_per_bar mid.ticks_per_beat (get_time_signature mid).1
        (get_time_signature mid).2) hB m
    rw [heq] at h
    exact hgood bar h

/-! ### Consequences of the scan invariant for retained bars -/

theorem keySorted_iff_map (l : List (Int × ChanMsg)) :
    KeySorted l ↔ List.Pairwise (fun a b : Int => a ≤ b) (l.map Prod.fst) :=
  List.pairwise_map.symm

theorem iter_abs_messages_sorted (mid : MidiFile) : KeySorted (iter_abs_messages mid) :=
  stableSortByKey_sorted _

theorem barWindow_sorted {events : List (Int × ChanMsg)} {barLen : Int} {b : Nat}
    (hs : KeySorted events) : KeySorted (barWindow events barLen b) :=
  List.Pairwise.sublist
    ((List.takeWhile_sublist _).trans (List.dropWhile_sublist _)) hs

theorem mem_barWindow_bounds {events : List (Int × ChanMsg)} {barLen : Int} {b : Nat}
    (hs : KeySorted events) :
    ∀ e ∈ barWindow events barLen b,
      (b : Int) * barLen ≤ e.1 ∧ e.1 < ((b : Int) + 1) * barLen := by
  intro e he
  refine ⟨?_, mem_takeWhile_key_lt e he⟩
  exact mem_dropWhile_key_ge hs e ((List.takeWhile_sublist _).subset he)

theorem barRel_sorted {events : List (Int × ChanMsg)} {barLen : Int} {b : Nat}
    (hs : KeySorted events) : KeySorted (barRel events barLen b) := by
  unfold barRel
  refine List.pairwise_map.mpr ?_
  refine (@barWindow_sorted events barLen b hs).imp ?_
  intro a c hac
  simpa using hac

theorem dropWhile_eq_filter_of_sorted {s : Int} {l : List (Int × ChanMsg)}
    (hs : KeySorted l) : l.dropWhile (tickLT s) = l.filter (fun e => ! tickLT s e) := by
  induction l with
  | nil => rfl
  | cons x xs ih =>
    obtain ⟨hx, hxs⟩ := List.pairwise_cons.mp hs
    by_cases h : x.1 < s
    · simp only [List.dropWhile_cons, List.filter_cons, tickLT, decide_eq_true_eq]
      rw [if_pos (by simpa using h)]
      have : (!decide (x.1 < s)) = false := by simpa using h
      rw [this]
      simp only [Bool.false_eq_true, if_false]
      exact ih hxs
    · push_neg at h
      simp only [List.dropWhile_cons, List.filter_cons, tickLT, decide_eq_true_eq]
      rw [if_neg (by omega)]
      have hxt : (!decide (x.1 < s)) = true := by simp; omega
      rw [hxt]
      simp only [if_true]
      congr 1
      symm
      rw [List.filter_eq_self]
      intro e he
      have : s ≤ e.1 := le_trans h (hx e he)
      simp
      omega

theorem barWindow_eq_filter {events : List (Int × ChanMsg)} {barLen : Int} {b : Nat}
    (hs : KeySorted events) :
    barWindow events barLen b = events.filter
      (fun e => decide ((b : Int) * barLen ≤ e.1) &&
                decide (e.1 < ((b : Int) + 1) * barLen)) := by
  unfold barWindow
  rw [dropWhile_eq_filter_of_sorted hs]
  rw [takeWhile_eq_filter_of_sorted (hs.filter _)]
  rw [List.filter_filter]
  refine List.filter_congr ?_
  intro e _
  simp only [tickLT, ← decide_not, ← Bool.decide_and]
  rw [decide_eq_decide, not_lt]
  exact and_comm

/-- Everything `extract_clean_bars` retains, in explicit form: the bar is the
delta-encoded relative window of some bar index `b`, the voice map is empty
before and after the window, and the window is non-empty.  (The re-sort the
code performs is the identity because the window is already sorted.) -/
theorem extract_bar_canonical {mid : MidiFile} {bar : Bar}
    (h : bar ∈ extract_clean_bars mid) :
    ∃ b : Nat,
      replayVoices [] ((iter_abs_messages mid).takeWhile
        (tickLT ((b : Int) * ticks_per_bar mid.ticks_per_beat
          (get_time_signature mid).1 (get_time_signature mid).2))) = [] ∧
      replayVoices [] ((iter_abs_messages mid).takeWhile
        (tickLT (((b : Int) + 1) * ticks_per_bar mid.ticks_per_beat
          (get_time_signature mid).1 (get_time_signature mid).2))) = [] ∧
      barRel (iter_abs_messages mid)
        (ticks_per_bar mid.ticks_per_beat (get_time_signature mid).1
          (get_time_signature mid).2) b ≠ [] ∧
      bar = assignDeltas 0 (barRel (iter_abs_messages mid)
        (ticks_per_bar mid.ticks_per_beat (get_time_signature mid).1
          (get_time_signature mid).2) b) := by
  obtain ⟨b, h1, h2, h3, h4⟩ := extract_clean_bars_good h
  refine ⟨b, h1, h2, h3, ?_⟩
  rw [h4, stableSortByKey_of_sorted (barRel_sorted (iter_abs_messages_sorted mid))]

theorem takeWhile_window_split (events : List (Int × ChanMsg)) (barLen : Int)
    (hB : 0 ≤ barLen) (b : Nat) :
    events.takeWhile (tickLT (((b : Int) + 1) * barLen)) =
      events.takeWhile (tickLT ((b : Int) * barLen)) ++ barWindow events barLen b := by
  have hall : ∀ x ∈ events.takeWhile (tickLT ((b : Int) * barLen)),
      tickLT (((b : Int) + 1) * barLen) x = true := by
    intro x hx
    have h1 : x.1 < (b : Int) * barLen := mem_takeWhile_key_lt x hx
    have h2 : (b : Int) * barLen ≤ ((b : Int) + 1) * barLen := by nlinarith
    simp only [tickLT, decide_eq_true_eq]
    linarith
  conv_lhs => rw [← List.takeWhile_append_dropWhile (tickLT ((b : Int) * barLen)) events]
  rw [takeWhile_append_all hall]
  rfl

/-- C4: for every bar returned by `extract_clean_bars`, (i) the bar is
non-empty, (ii) replaying the bar's events in order against an initially
empty voice map ends with an empty voice map, and (iii) for the bar's
window index `b` (start tick `b * barLen`), replaying all source events
strictly before the start tick from an empty voice map also yields an empty
voice map — where the window is anchored by the fact that the bar's events
shifted by the start tick are exactly the source events in
`[b*barLen, (b+1)*barLen)`. -/
theorem C4_bar_validity {mid : MidiFile} {bar : Bar}
    (h : bar ∈ extract_clean_bars mid) :
    bar ≠ [] ∧
    replayVoices [] bar = [] ∧
    ∃ b : Nat,
      replayVoices [] ((iter_abs_messages mid).filter
        (fun e => decide (e.1 < (b : Int) * ticks_per_bar mid.ticks_per_beat
          (get_time_signature mid).1 (get_time_signature mid).2))) = [] ∧
      bar.map (fun e => e.1 + (b : Int) * ticks_per_bar mid.ticks_per_beat
          (get_time_signature mid).1 (get_time_signature mid).2) =
        ((iter_abs_messages mid).filter
          (fun e => decide ((b : Int) * ticks_per_bar mid.ticks_per_beat
              (get_time_signature mid).1 (get_time_signature mid).2 ≤ e.1) &&
            decide (e.1 < ((b : Int) + 1) * ticks_per_bar mid.ticks_per_beat
              (get_time_signature mid).1 (get_time_signature mid).2))).map
          Prod.fst := by
  have hs := iter_abs_messages_sorted mid
  have hB : (0 : Int) ≤ ticks_per_bar mid.ticks_per_beat (get_time_signature mid).1
      (get_time_signature mid).2 := le_trans (by norm_num) (ticks_per_bar_pos _ _ _)
  obtain ⟨b, h1, h2, h3, hbar⟩ := extract_bar_canonical h
  have hmap : bar.map Prod.fst =
      (barRel (iter_abs_messages mid) (ticks_per_bar mid.ticks_per_beat
        (get_time_signature mid).1 (get_time_signature mid).2) b).map Prod.fst := by
    rw [hbar, assignDeltas_map_fst]
  refine ⟨?_, ?_, b, ?_, ?_⟩
  · intro hnil
    rw [hnil] at hmap
    exact h3 (List.map_eq_nil_iff.mp hmap.symm)
  · rw [hbar, replayVoices_assignDeltas]
    unfold barRel
    rw [replayVoices_map_rel]
    rw [takeWhile_window_split (iter_abs_messages mid) _ hB b,
      replayVoices_append, h1] at h2
    exact h2
  · have hrw : (fun e : Int × ChanMsg => decide (e.1 < (b : Int) *
        ticks_per_bar mid.ticks_per_beat (get_time_signature mid).1
          (get_time_signature mid).2)) =
        tickLT ((b : Int) * ticks_per_bar mid.ticks_per_beat
          (get_time_signature mid).1 (get_time_signature mid).2) := rfl
    rw [hrw, ← takeWhile_eq_filter_of_sorted hs]
    exact h1
  · rw [← barWindow_eq_filter hs]
    have hcomp1 : bar.map (fun e => e.1 + (b : Int) * ticks_per_bar
        mid.ticks_per_beat (get_time_signature mid).1 (get_time_signature mid).2) =
        (bar.map Prod.fst).map (fun t => t + (b : Int) * ticks_per_bar
          mid.ticks_per_beat (get_time_signature mid).1 (get_time_signature mid).2) := by
      rw [List.map_map]
      rfl
    rw [hcomp1, hmap]
    unfold barRel
    rw [List.map_map, List.map_map]
    refine List.map_congr_left ?_
    intro w _
    simp only [Function.comp]
    exact Int.sub_add_cancel _ _

/-- C10: every event of a bar returned by `extract_clean_bars` has a
bar-relative tick in `[0, ticks_per_bar tpb num den)` for that source's
resolution and time signature, and the relative ticks are non-decreasing in
the order the events appear in the bar. -/
theorem C10_bar_event_bounds {mid : MidiFile} {bar : Bar}
    (h : bar ∈ extract_clean_bars mid) :
    (∀ e ∈ bar, 0 ≤ e.1 ∧
        e.1 < ticks_per_bar mid.ticks_per_beat (get_time_signature mid).1
          (get_time_signature mid).2) ∧
    List.Pairwise (fun a b : Int × ChanMsg => a.1 ≤ b.1) bar := by
  have hs := iter_abs_messages_sorted mid
  obtain ⟨b, h1, h2, h3, hbar⟩ := extract_bar_canonical h
  have hmap : bar.map Prod.fst =
      (barRel (iter_abs_messages mid) (ticks_per_bar mid.ticks_per_beat
        (get_time_signature mid).1 (get_time_signature mid).2) b).map Prod.fst := by
    rw [hbar, assignDeltas_map_fst]
  constructor
  · intro e he
    have hmem : e.1 ∈ (barRel (iter_abs_messages mid) (ticks_per_bar
        mid.ticks_per_beat (get_time_signature mid).1
        (get_time_signature mid).2) b).map Prod.fst := by
      rw [← hmap]
      exact List.mem_map_of_mem Prod.fst he
    obtain ⟨x, hx, hxe⟩ := List.mem_map.mp hmem
    obtain ⟨w, hw, hwx⟩ := List.mem_map.mp hx
    obtain ⟨hw1, hw2⟩ := mem_barWindow_bounds hs w hw
    have hx1 : x.1 = w.1 - (b : Int) * ticks_per_bar mid.ticks_per_beat
        (get_time_signature mid).1 (get_time_signature mid).2 := by
      rw [← hwx]
    rw [← hxe, hx1]
    constructor
    · linarith
    · nlinarith
  · have hpm : List.Pairwise (fun a c : Int => a ≤ c)
        ((barRel (iter_abs_messages mid) (ticks_per_bar mid.ticks_per_beat
          (get_time_signature mid).1 (get_time_signature mid).2) b).map Prod.fst) :=
      List.pairwise_map.mpr (barRel_sorted hs)
    rw [← hmap] at hpm
    exact List.pairwise_map.mp hpm

/-! ### Concrete test artifacts used by witnesses and counterexamples -/

/-- A one-track source at resolution 4 (default 4/4 meter, bar length 16)
whose only safe bar has events at relative ticks 14 and 15. -/
def midLate : MidiFile :=
  ⟨4, [[RawMsg.chan ⟨.note_on, 0, 60, 64, 14⟩, RawMsg.chan ⟨.note_off, 0, 60, 0, 1⟩]]⟩

/-- The single safe bar of `midLate`. -/
def barLate : Bar :=
  [(14, ⟨.note_on, 0, 60, 64, 14⟩), (15, ⟨.note_off, 0, 60, 0, 1⟩)]

/-- A one-track source at resolution 4 with two distinct safe bars
(notes 60 and 62 in bars 0 and 1). -/
def midTwo : MidiFile :=
  ⟨4, [[RawMsg.chan ⟨.note_on, 0, 60, 64, 0⟩, RawMsg.chan ⟨.note_off, 0, 60, 0, 1⟩,
        RawMsg.chan ⟨.note_on, 0, 62, 64, 15⟩, RawMsg.chan ⟨.note_off, 0, 62, 0, 1⟩]]⟩

/-- A one-track source declaring resolution 0: its bar length is clamped to
1 and it still yields one safe bar, but rescaling any of its bars divides
by zero. -/
def midZero : MidiFile :=
  ⟨0, [[RawMsg.chan ⟨.note_on, 0, 60, 64, 0⟩, RawMsg.chan ⟨.note_off, 0, 60, 0, 0⟩]]⟩

/-- A shuffle stream whose every call swaps a two-element list. -/
def permsSwap : Nat → List Nat := fun _ => [1, 0]

/-- A shuffle stream whose every call leaves a one-element list unchanged. -/
def permsId : Nat → List Nat := fun _ => [0]

/-! ### C1: equivalence of the two build_from_spins functions -/

theorem genTables_agree (pool : List PoolEntry) (perms : Nat → List Nat)
    (n : Nat) (h : n ≤ 1) :
    Mozart.genTables pool perms n = (SpinGame.genTables pool perms n).2 := by
  cases n with
  | zero => rfl
  | succ m =>
    cases m with
    | zero => rfl
    | succ k => omega

/-- C1 (amended): the two `build_from_spins` functions agree whenever the
spin list has at most one element.  (With two or more spins they diverge in
general, because the Mozart file shuffles a fresh copy of the pool each
turn while the spin-game file shuffles the pool in place; see the
counterexample.) -/
theorem C1_build_equivalence (midis : List (String × MidiFile)) (spins : List Int)
    (tpbOut : Nat) (perms : Nat → List Nat) (h : spins.length ≤ 1) :
    Mozart.build_from_spins midis spins tpbOut perms =
      SpinGame.build_from_spins midis spins tpbOut perms := by
  simp only [Mozart.build_from_spins, SpinGame.build_from_spins]
  rw [genTables_agree _ perms _ h]

theorem C1_build_equivalence_witness :
    Mozart.build_from_spins [("a", midTwo)] [2] 4 permsSwap =
      SpinGame.build_from_spins [("a", midTwo)] [2] 4 permsSwap :=
  C1_build_equivalence _ _ _ _ (by decide)

/-- C1 counterexample: with the same two sources-derived pool, the same two
spins, the same output resolution and the same seed-derived shuffle stream,
the two programs produce different outputs (the second turn's table comes
from a fresh copy of the pool in one program and from the in-place-shuffled
pool in the other). -/
theorem C1_build_equivalence_counterexample :
    Mozart.build_from_spins [("a", midTwo)] [2, 2] 4 permsSwap ≠
      SpinGame.build_from_spins [("a", midTwo)] [2, 2] 4 permsSwap := by
  intro hEq
  have h2 := congrArg Except.toOption hEq
  revert h2
  decide

/-! ### C2: the empty-pool error condition -/

theorem buildPool_nil_iff (midis : List (String × MidiFile)) :
    (buildPool midis).1 = [] ↔ ∀ p ∈ midis, extract_clean_bars p.2 = [] := by
  induction midis with
  | nil => simp [buildPool]
  | cons p rest ih =>
    obtain ⟨name, mid⟩ := p
    by_cases hb : extract_clean_bars mid = []
    · simp only [buildPool, hb, if_pos]
      rw [ih]
      constructor
      · intro h q hq
        rcases List.mem_cons.mp hq with rfl | hq
        · exact hb
        · exact h q hq
      · intro h q hq
        exact h q (List.mem_cons_of_mem _ hq)
    · simp only [buildPool, hb, if_neg, if_false]
      constructor
      · intro h
        rcases List.append_eq_nil.mp h with ⟨h1, _⟩
        exact absurd (List.enum_eq_nil.mp (List.map_eq_nil_iff.mp h1)) hb
      · intro h
        exact absurd (h (name, mid) (by simp)) hb

/-- C2 (amended): `build_from_spins` (both programs) fails with the
empty-pool error exactly when every provided source yields no safe bar; it
returns an output stream exactly when at least one source yields a safe bar
AND no bar selected by the (clamped) spins comes from a source declaring
resolution 0 — at such a bar the rescaling division raises, so a non-empty
pool alone does not guarantee an output (see the counterexample). -/
theorem C2_empty_pool (midis : List (String × MidiFile)) (spins : List Int)
    (tpbOut : Nat) (perms : Nat → List Nat) :
    ((Mozart.build_from_spins midis spins tpbOut perms =
        .error "No clean bars found in the provided MIDIs.") ↔
      ∀ p ∈ midis, extract_clean_bars p.2 = []) ∧
    ((∃ r, Mozart.build_from_spins midis spins tpbOut perms = .ok r) ↔
      (∃ p ∈ midis, extract_clean_bars p.2 ≠ []) ∧
        anyZeroSrc (Mozart.genTables (buildPool midis).1 perms spins.length)
          0 spins = false) ∧
    ((SpinGame.build_from_spins midis spins tpbOut perms =
        .error "No clean bars found in the provided MIDIs.") ↔
      ∀ p ∈ midis, extract_clean_bars p.2 = []) ∧
    ((∃ r, SpinGame.build_from_spins midis spins tpbOut perms = .ok r) ↔
      (∃ p ∈ midis, extract_clean_bars p.2 ≠ []) ∧
        anyZeroSrc ((SpinGame.genTables (buildPool midis).1 perms
          spins.length).2) 0 spins = false) := by
  unfold Mozart.build_from_spins SpinGame.build_from_spins
  by_cases hp : (buildPool midis).1 = []
  · rw [if_pos hp, if_pos hp]
    have hall := (buildPool_nil_iff midis).mp hp
    have hok : ¬ ∃ r : OutMidi × List LogLine,
        (Except.error "No clean bars found in the provided MIDIs." :
          Except String (OutMidi × List LogLine)) = .ok r := by
      rintro ⟨r, hr⟩
      exact absurd hr (by simp)
    have hne : ¬ ∃ p ∈ midis, extract_clean_bars p.2 ≠ [] := by
      rintro ⟨q, hq, hqe⟩
      exact hqe (hall q hq)
    exact ⟨iff_of_true rfl hall, iff_of_false hok (fun hc => hne hc.1),
      iff_of_true rfl hall, iff_of_false hok (fun hc => hne hc.1)⟩
  · rw [if_neg hp, if_neg hp]
    have hsome : ∃ p ∈ midis, extract_clean_bars p.2 ≠ [] := by
      by_contra hnone
      push_neg at hnone
      exact hp ((buildPool_nil_iff midis).mpr hnone)
    have hnotall : ¬ ∀ p ∈ midis, extract_clean_bars p.2 = [] := by
      intro hall
      exact hp ((buildPool_nil_iff midis).mpr hall)
    refine ⟨?_, ?_, ?_, ?_⟩
    · cases hz : anyZeroSrc (Mozart.genTables (buildPool midis).1 perms
          spins.length) 0 spins
      · rw [if_neg (by simp [hz])]
        exact iff_of_false (by simp) hnotall
      · rw [if_pos (by simp [hz])]
        refine iff_of_false ?_ hnotall
        intro hEq
        exact absurd (Except.error.inj hEq) (by decide)
    · cases hz : anyZeroSrc (Mozart.genTables (buildPool midis).1 perms
          spins.length) 0 spins
      · rw [if_neg (by simp [hz])]
        exact iff_of_true ⟨_, rfl⟩ ⟨hsome, rfl⟩
      · rw [if_pos (by simp [hz])]
        refine iff_of_false ?_ ?_
        · rintro ⟨r, hr⟩
          exact absurd hr (by simp)
        · intro hc
          exact absurd hc.2 (by simp)
    · cases hz : anyZeroSrc ((SpinGame.genTables (buildPool midis).1 perms
          spins.length).2) 0 spins
      · rw [if_neg (by simp [hz])]
        exact iff_of_false (by simp) hnotall
      · rw [if_pos (by simp [hz])]
        refine iff_of_false ?_ hnotall
        intro hEq
        exact absurd (Except.error.inj hEq) (by decide)
    · cases hz : anyZeroSrc ((SpinGame.genTables (buildPool midis).1 perms
          spins.length).2) 0 spins
      · rw [if_neg (by simp [hz])]
        exact iff_of_true ⟨_, rfl⟩ ⟨hsome, rfl⟩
      · rw [if_pos (by simp [hz])]
        refine iff_of_false ?_ ?_
        · rintro ⟨r, hr⟩
          exact absurd hr (by simp)
        · intro hc
          exact absurd hc.2 (by simp)

/-- C2 counterexample: a source declaring resolution 0 still yields a safe
bar (bar length is clamped to 1), yet with one spin selecting one of its
bars both programs raise the division-by-zero error instead of returning an
output stream, refuting the claimed "some safe bar implies no raise". -/
theorem C2_empty_pool_counterexample :
    extract_clean_bars midZero ≠ [] ∧
    Mozart.build_from_spins [("z", midZero)] [2] 480 permsId =
      .error "ZeroDivisionError: float division by zero" ∧
    SpinGame.build_from_spins [("z", midZero)] [2] 480 permsId =
      .error "ZeroDivisionError: float division by zero" :=
  ⟨by decide, rfl, rfl⟩

/-! ### C3: determinism -/

/-- C3: both `build_from_spins` functions are pure functions of their
inputs — two runs with the same sources, spins, output resolution and the
same seed-derived shuffle stream produce identical outputs (output event
stream and trace). -/
theorem C3_determinism (m1 m2 : List (String × MidiFile)) (s1 s2 : List Int)
    (t1 t2 : Nat) (p1 p2 : Nat → List Nat)
    (hm : m1 = m2) (hs : s1 = s2) (ht : t1 = t2) (hp : p1 = p2) :
    Mozart.build_from_spins m1 s1 t1 p1 = Mozart.build_from_spins m2 s2 t2 p2 ∧
    SpinGame.build_from_spins m1 s1 t1 p1 = SpinGame.build_from_spins m2 s2 t2 p2 := by
  subst hm hs ht hp
  exact ⟨rfl, rfl⟩

theorem C3_determinism_witness :
    Mozart.build_from_spins [("a", midLate)] [2] 1 permsId =
      Mozart.build_from_spins [("a", midLate)] [2] 1 permsId ∧
    SpinGame.build_from_spins [("a", midLate)] [2] 1 permsId =
      SpinGame.build_from_spins [("a", midLate)] [2] 1 permsId :=
  C3_determinism _ _ _ _ _ _ _ _ rfl rfl rfl rfl

/-! ### C7 / C8: dice-table shape and roll clamping -/

theorem mkChoices_go_length (shuffled : List PoolEntry) (pos n : Nat) :
    (mkChoices_go shuffled pos n).length = n := by
  induction n generalizing pos with
  | zero => rfl
  | succ m ih => simp [mkChoices_go, ih]

theorem mem_mkChoices_go_length {shuffled : List PoolEntry} {pos n : Nat}
    {ph : List PoolEntry} (h : ph ∈ mkChoices_go shuffled pos n) : ph.length = 4 := by
  induction n generalizing pos with
  | zero => exact absurd h (List.not_mem_nil ph)
  | succ m ih =>
    rcases List.mem_cons.mp h with rfl | h
    · simp
    · exact ih h

theorem mkChoices_length (shuffled : List PoolEntry) :
    (mkChoices shuffled).length = 11 :=
  mkChoices_go_length shuffled 0 11

theorem mem_genTablesS_go {perms : Nat → List Nat} {pool : List PoolEntry}
    {k n : Nat} {tbl : List (List PoolEntry)}
    (h : tbl ∈ (SpinGame.genTables_go perms pool k n).2) :
    ∃ sh, tbl = mkChoices sh := by
  induction n generalizing pool k with
  | zero => exact absurd h (List.not_mem_nil tbl)
  | succ m ih =>
    simp only [SpinGame.genTables_go] at h
    rcases List.mem_cons.mp h with rfl | h
    · exact ⟨_, rfl⟩
    · exact ih h

theorem mem_genTablesM {pool : List PoolEntry} {perms : Nat → List Nat} {n : Nat}
    {tbl : List (List PoolEntry)} (h : tbl ∈ Mozart.genTables pool perms n) :
    ∃ sh, tbl = mkChoices sh := by
  unfold Mozart.genTables at h
  obtain ⟨k, _, hk⟩ := List.mem_map.mp h
  exact ⟨_, hk.symm⟩

/-- C7: for any pool with at least one bar, every turn's dice table (in both
programs) has exactly 11 entries, and every entry is a phrase of exactly 4
bars. -/
theorem C7_table_shape (pool : List PoolEntry) (perms : Nat → List Nat) (n : Nat)
    (_hpool : pool ≠ []) :
    (∀ tbl ∈ Mozart.genTables pool perms n,
        tbl.length = 11 ∧ ∀ ph ∈ tbl, ph.length = 4) ∧
    (∀ tbl ∈ (SpinGame.genTables pool perms n).2,
        tbl.length = 11 ∧ ∀ ph ∈ tbl, ph.length = 4) := by
  constructor
  · intro tbl htbl
    obtain ⟨sh, rfl⟩ := mem_genTablesM htbl
    exact ⟨mkChoices_length sh, fun ph hph => mem_mkChoices_go_length hph⟩
  · intro tbl htbl
    obtain ⟨sh, rfl⟩ := mem_genTablesS_go htbl
    exact ⟨mkChoices_length sh, fun ph hph => mem_mkChoices_go_length hph⟩

theorem C7_table_shape_witness :
    (buildPool [("a", midLate)]).1 ≠ [] ∧
    ((∀ tbl ∈ Mozart.genTables (buildPool [("a", midLate)]).1 permsId 1,
        tbl.length = 11 ∧ ∀ ph ∈ tbl, ph.length = 4) ∧
     (∀ tbl ∈ (SpinGame.genTables (buildPool [("a", midLate)]).1 permsId 1).2,
        tbl.length = 11 ∧ ∀ ph ∈ tbl, ph.length = 4)) :=
  ⟨by decide, C7_table_shape _ permsId 1 (by decide)⟩

/-- C8: the assembler clamps every supplied total into `[2, 12]`, and the
subsequent lookup index `total - 2` is always within the bounds of the
11-entry table (in both programs), so totals 2 and 12 in particular select
valid phrases. -/
theorem C8_roll_clamp (total : Int) (pool : List PoolEntry)
    (perms : Nat → List Nat) (n : Nat) :
    2 ≤ clampTotal total ∧ clampTotal total ≤ 12 ∧
    (∀ tbl ∈ Mozart.genTables pool perms n, (clampTotal total - 2).toNat < tbl.length) ∧
    (∀ tbl ∈ (SpinGame.genTables pool perms n).2,
      (clampTotal total - 2).toNat < tbl.length) := by
  have h2 : 2 ≤ clampTotal total := le_max_left _ _
  have h12 : clampTotal total ≤ 12 := by
    unfold clampTotal
    omega
  refine ⟨h2, h12, ?_, ?_⟩
  · intro tbl htbl
    obtain ⟨sh, rfl⟩ := mem_genTablesM htbl
    rw [mkChoices_length]
    omega
  · intro tbl htbl
    obtain ⟨sh, rfl⟩ := mem_genTablesS_go htbl
    rw [mkChoices_length]
    omega

theorem C8_roll_clamp_witness :
    (2 ≤ clampTotal 13 ∧ clampTotal 13 ≤ 12 ∧
      (∀ tbl ∈ Mozart.genTables (buildPool [("a", midLate)]).1 permsId 1,
        (clampTotal 13 - 2).toNat < tbl.length) ∧
      (∀ tbl ∈ (SpinGame.genTables (buildPool [("a", midLate)]).1 permsId 1).2,
        (clampTotal 13 - 2).toNat < tbl.length)) ∧
    (2 ≤ clampTotal 2 ∧ clampTotal 2 ≤ 12 ∧
      (∀ tbl ∈ Mozart.genTables (buildPool [("a", midLate)]).1 permsId 1,
        (clampTotal 2 - 2).toNat < tbl.length) ∧
      (∀ tbl ∈ (SpinGame.genTables (buildPool [("a", midLate)]).1 permsId 1).2,
        (clampTotal 2 - 2).toNat < tbl.length)) :=
  ⟨C8_roll_clamp 13 _ permsId 1, C8_roll_clamp 2 _ permsId 1⟩

/-! ### C9: the pool across table generation -/

theorem filterMap_getElem_range (l : List PoolEntry) :
    (List.range l.length).filterMap (fun i => l[i]?) = l := by
  induction l with
  | nil => simp
  | cons x xs ih =>
    rw [List.length_cons, List.range_succ_eq_map]
    simp only [List.filterMap_cons]
    rw [List.filterMap_map]
    have hcomp : ((fun i => (x :: xs)[i]?) ∘ Nat.succ) = fun i => xs[i]? := by
      funext i
      simp
    simp only [List.getElem?_cons_zero]
    rw [hcomp]
    rw [ih]

theorem applyPerm_perm {σ : List Nat} {l : List PoolEntry}
    (h : σ.Perm (List.range l.length)) : (applyPerm σ l).Perm l := by
  unfold applyPerm
  have h1 := h.filterMap (fun i => l[i]?)
  rw [filterMap_getElem_range l] at h1
  exact h1

theorem genTablesS_go_pool_perm (perms : Nat → List Nat) (N : Nat)
    (hp : ∀ i, (perms i).Perm (List.range N)) :
    ∀ (n : Nat) (pool : List PoolEntry) (k : Nat), pool.length = N →
      ((SpinGame.genTables_go perms pool k n).1).Perm pool := by
  intro n
  induction n with
  | zero => intro pool k _; exact List.Perm.refl pool
  | succ m ih =>
    intro pool k hlen
    have hperm : (applyPerm (perms k) pool).Perm pool :=
      applyPerm_perm (by rw [hlen]; exact hp k)
    have hlen2 : (applyPerm (perms k) pool).length = N := by
      rw [hperm.length_eq, hlen]
    exact ((ih (applyPerm (perms k) pool) (k + 1) hlen2).trans hperm)

/-- C9 (amended): in the Mozart program each turn's table is generated from
the unchanged original pool (turn `k`'s table is `mkChoices` of a shuffled
copy of the original pool); in the spin-game program the pool is shuffled
in place, so after table generation it is only a permutation of the
original pool — the same elements, but not, in general, in the same order
(see the counterexample). -/
theorem C9_pool_frame (pool : List PoolEntry) (perms : Nat → List Nat) (n : Nat) :
    (∀ k, k < n → (Mozart.genTables pool perms n).getD k [] =
        mkChoices (applyPerm (perms k) pool)) ∧
    ((∀ i, (perms i).Perm (List.range pool.length)) →
      ((SpinGame.genTables pool perms n).1).Perm pool) := by
  constructor
  · intro k hk
    unfold Mozart.genTables
    rw [List.getD_eq_getElem?_getD, List.getElem?_map, List.getElem?_range hk]
    rfl
  · intro hp
    exact genTablesS_go_pool_perm perms pool.length hp n pool 0 rfl

theorem C9_pool_frame_witness :
    ((Mozart.genTables (buildPool [("a", midTwo)]).1 permsSwap 1).getD 0 [] =
      mkChoices (applyPerm (permsSwap 0) (buildPool [("a", midTwo)]).1)) ∧
    ((SpinGame.genTables (buildPool [("a", midTwo)]).1 permsSwap 1).1).Perm
      (buildPool [("a", midTwo)]).1 :=
  ⟨(C9_pool_frame _ permsSwap 1).1 0 (by decide),
   (C9_pool_frame _ permsSwap 1).2 (fun i => by
      show ([1, 0] : List Nat).Perm (List.range (buildPool [("a", midTwo)]).1.length)
      decide)⟩

/-- C9 counterexample: in the spin-game program the pool is not left
unchanged by table generation — one turn with a swapping shuffle reverses a
two-bar pool. -/
theorem C9_pool_frame_counterexample :
    (SpinGame.genTables (buildPool [("a", midTwo)]).1 permsSwap 1).1 ≠
      (buildPool [("a", midTwo)]).1 := by
  decide

/-! ### C5: turn placement in the assembled timeline -/

theorem phraseChunk_lower_bound (tpbOut : Nat) (barLenOut : Int)
    (hB : 0 ≤ barLenOut) :
    ∀ (phrase : List PoolEntry) (base : Int),
      (∀ entry ∈ phrase, ∀ ev ∈ entry.2.2.2,
          0 ≤ roundHalfEvenDiv (ev.1 * tpbOut) entry.1) →
      ∀ e ∈ (phraseChunk tpbOut barLenOut base phrase).1, base ≤ e.1 := by
  intro phrase
  induction phrase with
  | nil =>
    intro base _ e he
    exact absurd he (List.not_mem_nil e)
  | cons entry rest ih =>
    intro base h e he
    simp only [phraseChunk] at he
    rcases List.mem_append.mp he with hm | hm
    · unfold rebaseBar at hm
      rw [List.map_map] at hm
      obtain ⟨ev, hev, hevE⟩ := List.mem_map.mp hm
      have h0 := h entry (by simp) ev hev
      rw [← hevE]
      simp only [Function.comp]
      linarith
    · have := ih (base + barLenOut)
        (fun entry' h' => h entry' (List.mem_cons_of_mem _ h')) e hm
      linarith

theorem phraseChunk_upper_bound (tpbOut : Nat) (barLenOut : Int)
    (hB : 0 ≤ barLenOut) :
    ∀ (phrase : List PoolEntry) (base : Int),
      (∀ entry ∈ phrase, ∀ ev ∈ entry.2.2.2,
          roundHalfEvenDiv (ev.1 * tpbOut) entry.1 < barLenOut) →
      ∀ e ∈ (phraseChunk tpbOut barLenOut base phrase).1,
        e.1 < base + (phrase.length : Int) * barLenOut := by
  intro phrase
  induction phrase with
  | nil =>
    intro base _ e he
    exact absurd he (List.not_mem_nil e)
  | cons entry rest ih =>
    intro base h e he
    have hlen : ((entry :: rest).length : Int) = (rest.length : Int) + 1 := by
      push_cast [List.length_cons]
      ring
    rw [hlen]
    have hlpos : 0 ≤ (rest.length : Int) * barLenOut :=
      mul_nonneg (by positivity) hB
    simp only [phraseChunk] at he
    rcases List.mem_append.mp he with hm | hm
    · unfold rebaseBar at hm
      rw [List.map_map] at hm
      obtain ⟨ev, hev, hevE⟩ := List.mem_map.mp hm
      have h0 := h entry (by simp) ev hev
      rw [← hevE]
      simp only [Function.comp]
      nlinarith
    · have := ih (base + barLenOut)
        (fun entry' h' => h entry' (List.mem_cons_of_mem _ h')) e hm
      nlinarith

/-- C5 (amended): in the assembly loop, every event of turn `i` (whose running
offset starts at `i * 4 * barLenOut`) is placed at an absolute output tick
`≥ i * 4 * barLenOut` whenever all rescaled relative ticks are non-negative
(true for every pool bar); the strict upper bound `< (i+1) * 4 * barLenOut`
holds under the additional hypothesis that every rescaled relative tick is
less than the output bar length — which rescaling can violate, so the bound
claimed unconditionally by the spec fails in general (see the
counterexample). -/
theorem C5_turn_placement (tpbOut : Nat) (barLenOut : Int) (i : Nat)
    (phrase : List PoolEntry) (hB : 0 ≤ barLenOut) (hlen : phrase.length = 4)
    (h0 : ∀ entry ∈ phrase, ∀ ev ∈ entry.2.2.2,
        0 ≤ roundHalfEvenDiv (ev.1 * tpbOut) entry.1) :
    (∀ e ∈ (phraseChunk tpbOut barLenOut ((i : Int) * (4 * barLenOut)) phrase).1,
        (i : Int) * (4 * barLenOut) ≤ e.1) ∧
    ((∀ entry ∈ phrase, ∀ ev ∈ entry.2.2.2,
        roundHalfEvenDiv (ev.1 * tpbOut) entry.1 < barLenOut) →
      ∀ e ∈ (phraseChunk tpbOut barLenOut ((i : Int) * (4 * barLenOut)) phrase).1,
        e.1 < ((i : Int) + 1) * (4 * barLenOut)) := by
  constructor
  · exact phraseChunk_lower_bound tpbOut barLenOut hB phrase _ h0
  · intro hfit e he
    have := phraseChunk_upper_bound tpbOut barLenOut hB phrase _ hfit e he
    rw [hlen] at this
    push_cast at this
    nlinarith

theorem C5_turn_placement_witness :
    ((buildPool [("a", midLate)]).1.length = 1 ∧
      (((Mozart.genTables (buildPool [("a", midLate)]).1 permsId 1).getD 0
        []).getD (clampTotal 2 - 2).toNat []).length = 4) ∧
    ((∀ e ∈ (phraseChunk 4 (ticks_per_bar 4 4 4)
        ((0 : Int) * (4 * ticks_per_bar 4 4 4))
        (((Mozart.genTables (buildPool [("a", midLate)]).1 permsId 1).getD 0
          []).getD (clampTotal 2 - 2).toNat [])).1,
        (0 : Int) * (4 * ticks_per_bar 4 4 4) ≤ e.1) ∧
     ((∀ entry ∈ ((Mozart.genTables (buildPool [("a", midLate)]).1 permsId
          1).getD 0 []).getD (clampTotal 2 - 2).toNat [],
        ∀ ev ∈ entry.2.2.2,
          roundHalfEvenDiv (ev.1 * 4) entry.1 < ticks_per_bar 4 4 4) →
      ∀ e ∈ (phraseChunk 4 (ticks_per_bar 4 4 4)
          ((0 : Int) * (4 * ticks_per_bar 4 4 4))
          (((Mozart.genTables (buildPool [("a", midLate)]).1 permsId 1).getD 0
            []).getD (clampTotal 2 - 2).toNat [])).1,
        e.1 < ((0 : Int) + 1) * (4 * ticks_per_bar 4 4 4))) :=
  ⟨by decide,
   C5_turn_placement 4 (ticks_per_bar 4 4 4) 0 _ (by decide) (by decide) (by decide)⟩

/-- C5 counterexample: with a source at resolution 4 and output resolution 1
(output bar length 4), a safe bar with events at relative ticks 14 and 15
rescales to relative tick 4 = output bar length, so the fourth bar of turn
0's phrase places events at absolute tick 16, outside the claimed range
`[0, (0+1) * 4 * barLenOut) = [0, 16)`. -/
theorem C5_turn_placement_counterexample :
    ¬ (∀ e ∈ (phraseChunk 1 (ticks_per_bar 1 4 4)
        ((0 : Int) * (4 * ticks_per_bar 1 4 4))
        (((Mozart.genTables (buildPool [("a", midLate)]).1 permsId 1).getD 0
          []).getD (clampTotal 2 - 2).toNat [])).1,
        e.1 < ((0 : Int) + 1) * (4 * ticks_per_bar 1 4 4)) := by
  decide

/-! ### Witnesses for C4 and C10 -/

theorem C4_bar_validity_witness :
    barLate ∈ extract_clean_bars midLate ∧
    (barLate ≠ [] ∧
     replayVoices [] barLate = [] ∧
     ∃ b : Nat,
       replayVoices [] ((iter_abs_messages midLate).filter
         (fun e => decide (e.1 < (b : Int) * ticks_per_bar midLate.ticks_per_beat
           (get_time_signature midLate).1 (get_time_signature midLate).2))) = [] ∧
       barLate.map (fun e => e.1 + (b : Int) * ticks_per_bar midLate.ticks_per_beat
           (get_time_signature midLate).1 (get_time_signature midLate).2) =
         ((iter_abs_messages midLate).filter
           (fun e => decide ((b : Int) * ticks_per_bar midLate.ticks_per_beat
               (get_time_signature midLate).1 (get_time_signature midLate).2 ≤ e.1) &&
             decide (e.1 < ((b : Int) + 1) * ticks_per_bar midLate.ticks_per_beat
               (get_time_signature midLate).1 (get_time_signature midLate).2))).map
           Prod.fst) :=
  ⟨by decide, C4_bar_validity (by decide)⟩

theorem C10_bar_event_bounds_witness :
    barLate ∈ extract_clean_bars midLate ∧
    ((∀ e ∈ barLate, 0 ≤ e.1 ∧
        e.1 < ticks_per_bar midLate.ticks_per_beat (get_time_signature midLate).1
          (get_time_signature midLate).2) ∧
     List.Pairwise (fun a b : Int × ChanMsg => a.1 ≤ b.1) barLate) :=
  ⟨by decide, C10_bar_event_bounds (by decide)⟩
